import Mathlib

/-!
# Verification of the tempshare object-lifecycle engine

Shallow embedding of the core of the `tempshare` repository:

* the client-side streaming encryption protocol
  (`frontend` `src/lib/crypto.ts`: `createChunkingStream`,
  `createEncryptionStream`, `createDecryptionStream`),
* the HTTP handlers (`backend/handlers.go`),
* the access-code generator (`backend/handlers.go`),
* the per-IP token-bucket rate limiter (`golang.org/x/time/rate` as used by
  the `IPRateLimiter` in the backend),
* the expiry reaper (`backend/tasks.go`).

Bytes are modelled as `Nat`s (the protocol logic never overflows a byte:
the only place byte values matter is the 4-byte big-endian length prefix,
whose bytes are produced `< 256` by construction).  The AEAD cipher
(WebCrypto AES-GCM) and the password KDF are platform primitives outside
the repository; they are modelled abstractly as an `enc`/`dec` pair with
the standard AEAD correctness assumption.
-/

namespace TempShare

/-! ## Byte-stream helpers: 4-byte big-endian length prefix

`createEncryptionStream` writes the frame length with
`view.setUint32(0, combined.byteLength, false)` (big-endian), and
`createDecryptionStream` reads it back with `getUint32(0, false)`. -/

/-- Big-endian 4-byte encoding of `n` (as `DataView.setUint32(0, n, false)`
writes it). -/
def be4encode (n : Nat) : List Nat :=
  [n / 16777216 % 256, n / 65536 % 256, n / 256 % 256, n % 256]

/-- Big-endian 32-bit value of four bytes (as `DataView.getUint32(0, false)`
reads it). -/
def be4val (b0 b1 b2 b3 : Nat) : Nat :=
  b0 * 16777216 + b1 * 65536 + b2 * 256 + b3

theorem be4encode_length (n : Nat) : (be4encode n).length = 4 := rfl

theorem be4val_be4encode (n : Nat) (h : n < 4294967296) :
    be4val (n / 16777216 % 256) (n / 65536 % 256) (n / 256 % 256) (n % 256) = n := by
  unfold be4val
  omega

/-! ## The decryption reassembly state machine

`createDecryptionStream` keeps an internal byte buffer.  On each incoming
network fragment it appends the fragment to the buffer and then runs a
drain loop: while at least 4 bytes are buffered it reads the big-endian
frame length; once the whole frame (`4 + frameLength` bytes) is buffered
it slices the frame out, splits it as `IV_LENGTH = 12` bytes of IV
followed by ciphertext, decrypts, and emits the plaintext chunk; a failed
decryption errors the stream.  `flush` errors on a non-empty leftover
buffer. -/

/-- One drain loop of `createDecryptionStream`'s `transform`: parse and
decrypt as many complete frames as the buffer holds.  Returns the emitted
plaintext chunks and the leftover buffer, or `none` if a frame failed to
decrypt. -/
def drainBuffer (dec : List Nat → List Nat → Option (List Nat)) :
    List Nat → Option (List (List Nat) × List Nat)
  | b0 :: b1 :: b2 :: b3 :: rest =>
    if rest.length < be4val b0 b1 b2 b3 then
      some ([], b0 :: b1 :: b2 :: b3 :: rest)
    else
      match dec ((rest.take (be4val b0 b1 b2 b3)).take 12)
                ((rest.take (be4val b0 b1 b2 b3)).drop 12) with
      | none => none
      | some pt =>
        (drainBuffer dec (rest.drop (be4val b0 b1 b2 b3))).map fun p => (pt :: p.1, p.2)
  | buf => some ([], buf)
  termination_by buf => buf.length
  decreasing_by simp only [List.length_drop, List.length_cons]; omega

/-- A buffer with fewer than 4 bytes cannot be drained (the length prefix
is incomplete). -/
theorem drainBuffer_short (dec : List Nat → List Nat → Option (List Nat))
    (buf : List Nat) (h : buf.length < 4) : drainBuffer dec buf = some ([], buf) := by
  match buf with
  | [] => rw [drainBuffer]; simp
  | [a] => rw [drainBuffer]; simp
  | [a, b] => rw [drainBuffer]; simp
  | [a, b, c] => rw [drainBuffer]; simp
  | a :: b :: c :: d :: r => simp at h; omega

/-- A buffer the drain loop has stopped on stays as it is: draining it
again emits nothing.  (The leftover of any drain is such a buffer.) -/
theorem drainBuffer_of_drainBuffer {dec : List Nat → List Nat → Option (List Nat)}
    {buf : List Nat} {o : List (List Nat)} {r : List Nat}
    (h : drainBuffer dec buf = some (o, r)) : drainBuffer dec r = some ([], r) := by
  induction buf using drainBuffer.induct dec generalizing o with
  | case1 b0 b1 b2 b3 rest hlt =>
    rw [drainBuffer, if_pos hlt] at h
    simp only [Option.some.injEq, Prod.mk.injEq] at h
    obtain ⟨rfl, rfl⟩ := h
    rw [drainBuffer, if_pos hlt]
  | case2 b0 b1 b2 b3 rest hlt hdec =>
    rw [drainBuffer, if_neg hlt, hdec] at h
    simp at h
  | case3 b0 b1 b2 b3 rest hlt pt hdec ih =>
    rw [drainBuffer, if_neg hlt, hdec] at h
    simp only [Option.map_eq_some'] at h
    obtain ⟨⟨o', r'⟩, hrec, heq⟩ := h
    simp only [Prod.mk.injEq] at heq
    obtain ⟨-, rfl⟩ := heq
    exact ih hrec
  | case4 buf hne =>
    have hlen : buf.length < 4 := by
      rcases buf with _ | ⟨a, _ | ⟨b, _ | ⟨c, _ | ⟨d, t⟩⟩⟩⟩
      · simp
      · simp
      · simp
      · simp
      · exact ((hne a b c d t rfl).elim)
    rw [drainBuffer_short dec buf hlen] at h
    simp only [Option.some.injEq, Prod.mk.injEq] at h
    obtain ⟨rfl, rfl⟩ := h
    exact drainBuffer_short dec _ hlen

/-- Draining depends only on the concatenated byte stream: draining
`bufA ++ bufB` is draining `bufA`, then draining its leftover with `bufB`
appended, collecting the emitted chunks in order. -/
theorem drainBuffer_append (dec : List Nat → List Nat → Option (List Nat))
    (bufA bufB : List Nat) :
    drainBuffer dec (bufA ++ bufB) =
      (drainBuffer dec bufA).bind fun p =>
        (drainBuffer dec (p.2 ++ bufB)).map fun q => (p.1 ++ q.1, q.2) := by
  induction bufA using drainBuffer.induct dec with
  | case1 b0 b1 b2 b3 rest hlt =>
    rw [drainBuffer, if_pos hlt]
    simp
  | case2 b0 b1 b2 b3 rest hlt hdec =>
    have hle : be4val b0 b1 b2 b3 ≤ rest.length := Nat.le_of_not_lt hlt
    have hlt2 : ¬ (rest ++ bufB).length < be4val b0 b1 b2 b3 := by
      simp only [List.length_append]; omega
    rw [show (b0 :: b1 :: b2 :: b3 :: rest) ++ bufB
          = b0 :: b1 :: b2 :: b3 :: (rest ++ bufB) from rfl]
    rw [drainBuffer, drainBuffer, if_neg hlt2, if_neg hlt,
      List.take_append_of_le_length hle, hdec]
    simp
  | case3 b0 b1 b2 b3 rest hlt pt hdec ih =>
    have hle : be4val b0 b1 b2 b3 ≤ rest.length := Nat.le_of_not_lt hlt
    have hlt2 : ¬ (rest ++ bufB).length < be4val b0 b1 b2 b3 := by
      simp only [List.length_append]; omega
    rw [show (b0 :: b1 :: b2 :: b3 :: rest) ++ bufB
          = b0 :: b1 :: b2 :: b3 :: (rest ++ bufB) from rfl]
    rw [drainBuffer, drainBuffer, if_neg hlt2, if_neg hlt,
      List.take_append_of_le_length hle, hdec,
      List.drop_append_of_le_length hle, ih]
    cases hA : drainBuffer dec (rest.drop (be4val b0 b1 b2 b3)) with
    | none => rfl
    | some p =>
      simp only [Option.some_bind, Option.map_map]
      rfl
  | case4 buf hne =>
    have hlen : buf.length < 4 := by
      rcases buf with _ | ⟨a, _ | ⟨b, _ | ⟨c, _ | ⟨d, t⟩⟩⟩⟩
      · simp
      · simp
      · simp
      · simp
      · exact ((hne a b c d t rfl).elim)
    rw [drainBuffer_short dec buf hlen]
    simp

/-- Processing one network fragment: append it to the internal buffer and
drain. -/
def processFragment (dec : List Nat → List Nat → Option (List Nat))
    (st : List (List Nat) × List Nat) (frag : List Nat) :
    Option (List (List Nat) × List Nat) :=
  (drainBuffer dec (st.2 ++ frag)).map fun p => (st.1 ++ p.1, p.2)

/-- The whole decryption stream `createDecryptionStream`: feed the network
fragments one by one through `transform`, then `flush` (which errors when
the buffer is non-empty).  Returns the emitted plaintext chunks in order,
or `none` on a decryption / truncation error. -/
def createDecryptionStream (dec : List Nat → List Nat → Option (List Nat))
    (frags : List (List Nat)) : Option (List (List Nat)) := do
  let st ← frags.foldlM (processFragment dec) ([], [])
  if st.2.isEmpty then pure st.1 else none

/-- Feeding fragments one by one is the same as draining their
concatenation in one go. -/
theorem foldlM_processFragment (dec : List Nat → List Nat → Option (List Nat))
    (frags : List (List Nat)) :
    ∀ (out0 : List (List Nat)) (buf0 : List Nat),
      drainBuffer dec buf0 = some ([], buf0) →
      frags.foldlM (processFragment dec) (out0, buf0) =
        (drainBuffer dec (buf0 ++ frags.join)).map fun p => (out0 ++ p.1, p.2) := by
  induction frags with
  | nil =>
    intro out0 buf0 h0
    simp [h0]
  | cons f fs ih =>
    intro out0 buf0 h0
    rw [List.foldlM_cons]
    rw [show List.join (f :: fs) = f ++ fs.join from rfl, ← List.append_assoc,
      drainBuffer_append]
    show (processFragment dec (out0, buf0) f).bind
        (fun st => fs.foldlM (processFragment dec) st) = _
    rw [processFragment]
    cases hd : drainBuffer dec (buf0 ++ f) with
    | none => rfl
    | some p =>
      have hstuck := drainBuffer_of_drainBuffer hd
      simp only [Option.map_some', Option.some_bind]
      rw [ih (out0 ++ p.1) p.2 hstuck]
      cases hq : drainBuffer dec (p.2 ++ fs.join) with
      | none => rfl
      | some q => simp

/-- `createDecryptionStream` depends only on the concatenated byte stream,
not on how the network fragmented it. -/
theorem createDecryptionStream_join (dec : List Nat → List Nat → Option (List Nat))
    (frags : List (List Nat)) :
    createDecryptionStream dec frags =
      (drainBuffer dec frags.join).bind
        fun p => if p.2.isEmpty then some p.1 else none := by
  rw [createDecryptionStream]
  rw [show (do
        let st ← frags.foldlM (processFragment dec) (([], []) :
          List (List Nat) × List Nat)
        if st.2.isEmpty then pure st.1 else none) =
      (frags.foldlM (processFragment dec) (([], []) : List (List Nat) × List Nat)).bind
        (fun st => if st.2.isEmpty then some st.1 else none) from rfl]
  rw [foldlM_processFragment dec frags [] [] (drainBuffer_short dec [] (by simp))]
  cases hd : drainBuffer dec ([] ++ frags.join) with
  | none => simp_all
  | some p => simp_all

/-! ## The chunking stream

`createChunkingStream` buffers incoming data and re-emits it in chunks of
exactly `chunkSize` bytes, flushing any final partial chunk.  (The
source's `while (buffer.length >= chunkSize)` loop does not terminate for
`chunkSize = 0`; the embedding guards the loop with `0 < chunkSize` and
all theorems assume a positive chunk size.) -/

/-- The `while (buffer.length >= chunkSize)` loop of the chunking
stream's `transform`: emitted chunks and remaining buffer. -/
def emitChunks (chunkSize : Nat) (buffer : List Nat) : List (List Nat) × List Nat :=
  if h : 0 < chunkSize ∧ chunkSize ≤ buffer.length then
    let p := emitChunks chunkSize (buffer.drop chunkSize)
    (buffer.take chunkSize :: p.1, p.2)
  else ([], buffer)
  termination_by buffer.length
  decreasing_by simp only [List.length_drop]; omega

/-- One `transform` call of the chunking stream. -/
def chunkTransform (chunkSize : Nat) (st : List (List Nat) × List Nat)
    (frag : List Nat) : List (List Nat) × List Nat :=
  (st.1 ++ (emitChunks chunkSize (st.2 ++ frag)).1,
    (emitChunks chunkSize (st.2 ++ frag)).2)

/-- The whole chunking stream `createChunkingStream`: all `transform`
calls, then `flush` (which emits the final partial chunk if non-empty). -/
def createChunkingStream (chunkSize : Nat) (frags : List (List Nat)) :
    List (List Nat) :=
  let st := frags.foldl (chunkTransform chunkSize) ([], [])
  if st.2.isEmpty then st.1 else st.1 ++ [st.2]

theorem emitChunks_join (chunkSize : Nat) (buffer : List Nat) :
    (emitChunks chunkSize buffer).1.join ++ (emitChunks chunkSize buffer).2 = buffer := by
  induction buffer using emitChunks.induct chunkSize with
  | case1 buffer h ih =>
    rw [emitChunks, dif_pos h]
    simpa [List.append_assoc] using congrArg (buffer.take chunkSize ++ ·) ih
  | case2 buffer h =>
    rw [emitChunks, dif_neg h]
    simp

theorem emitChunks_buffer_lt (chunkSize : Nat) (buffer : List Nat)
    (hcs : 0 < chunkSize) : (emitChunks chunkSize buffer).2.length < chunkSize := by
  induction buffer using emitChunks.induct chunkSize with
  | case1 buffer h ih =>
    rw [emitChunks, dif_pos h]
    exact ih
  | case2 buffer h =>
    rw [emitChunks, dif_neg h]
    push_neg at h
    exact h hcs

theorem emitChunks_mem_length (chunkSize : Nat) (buffer : List Nat)
    (c : List Nat) (hc : c ∈ (emitChunks chunkSize buffer).1) :
    c.length = chunkSize := by
  induction buffer using emitChunks.induct chunkSize with
  | case1 buffer h ih =>
    rw [emitChunks, dif_pos h] at hc
    rcases List.mem_cons.mp hc with rfl | hc'
    · rw [List.length_take]
      omega
    · exact ih hc'
  | case2 buffer h =>
    rw [emitChunks, dif_neg h] at hc
    simp at hc

theorem foldl_chunkTransform_join (chunkSize : Nat) (frags : List (List Nat)) :
    ∀ st : List (List Nat) × List Nat,
      (frags.foldl (chunkTransform chunkSize) st).1.join
          ++ (frags.foldl (chunkTransform chunkSize) st).2
        = st.1.join ++ (st.2 ++ frags.join) := by
  induction frags with
  | nil => intro st; simp
  | cons f fs ih =>
    intro st
    rw [List.foldl_cons, ih]
    have he := emitChunks_join chunkSize (st.2 ++ f)
    rw [show List.join (f :: fs) = f ++ fs.join from rfl,
      ← List.append_assoc st.2 f fs.join, ← he]
    simp [chunkTransform, List.append_assoc]

/-- The chunking stream re-emits exactly the bytes it was fed. -/
theorem createChunkingStream_join (chunkSize : Nat) (frags : List (List Nat)) :
    (createChunkingStream chunkSize frags).join = frags.join := by
  rw [createChunkingStream]
  have h := foldl_chunkTransform_join chunkSize frags ([], [])
  simp only [List.join, List.nil_append] at h
  rcases hst : frags.foldl (chunkTransform chunkSize) ([], []) with ⟨out, buf⟩
  rw [hst] at h
  rcases buf with _ | ⟨b, bs⟩
  · simpa using h
  · simpa [List.join_append] using h

theorem foldl_chunkTransform_bounds (chunkSize : Nat) (hcs : 0 < chunkSize)
    (frags : List (List Nat)) :
    ∀ st : List (List Nat) × List Nat,
      (∀ c ∈ st.1, 0 < c.length ∧ c.length ≤ chunkSize) →
      st.2.length < chunkSize →
      (∀ c ∈ (frags.foldl (chunkTransform chunkSize) st).1,
          0 < c.length ∧ c.length ≤ chunkSize) ∧
        (frags.foldl (chunkTransform chunkSize) st).2.length < chunkSize := by
  induction frags with
  | nil => intro st h1 h2; exact ⟨h1, h2⟩
  | cons f fs ih =>
    intro st h1 h2
    rw [List.foldl_cons]
    refine ih _ ?_ ?_
    · intro c hc
      rcases List.mem_append.mp hc with hc' | hc'
      · exact h1 c hc'
      · have := emitChunks_mem_length chunkSize (st.2 ++ f) c hc'
        omega
    · exact emitChunks_buffer_lt chunkSize (st.2 ++ f) hcs

/-- Every chunk the chunking stream emits is non-empty and at most
`chunkSize` bytes long. -/
theorem createChunkingStream_mem (chunkSize : Nat) (frags : List (List Nat))
    (hcs : 0 < chunkSize) :
    ∀ c ∈ createChunkingStream chunkSize frags,
      0 < c.length ∧ c.length ≤ chunkSize := by
  rw [createChunkingStream]
  have h := foldl_chunkTransform_bounds chunkSize hcs frags ([], [])
    (by intro c hc; simp at hc) (by simpa using hcs)
  rcases hst : frags.foldl (chunkTransform chunkSize) ([], []) with ⟨out, buf⟩
  rw [hst] at h
  rcases buf with _ | ⟨b, bs⟩
  · simpa using h.1
  · intro c hc
    rcases (by simpa using hc : c ∈ out ∨ c = b :: bs) with hc' | rfl
    · exact h.1 c hc'
    · refine ⟨by simp, ?_⟩
      have := h.2
      simp only [List.length_cons] at this ⊢
      omega

/-! ## The encryption stream

`createEncryptionStream` encrypts each incoming chunk with a fresh random
IV (12 bytes) and enqueues two outputs per chunk: the 4-byte big-endian
length prefix of `iv ++ ciphertext`, then `iv ++ ciphertext` itself.
The AEAD cipher is abstract: `enc iv plaintext` is the
ciphertext-plus-tag WebCrypto's AES-GCM `encrypt` returns, and the IV
source `ivs` maps the chunk index to the random IV `getRandomValues`
produced for it. -/

def encryptFrom (enc : List Nat → List Nat → List Nat) (ivs : Nat → List Nat) :
    Nat → List (List Nat) → List (List Nat)
  | _, [] => []
  | k, c :: cs =>
    be4encode (ivs k ++ enc (ivs k) c).length :: (ivs k ++ enc (ivs k) c)
      :: encryptFrom enc ivs (k + 1) cs

def createEncryptionStream (enc : List Nat → List Nat → List Nat)
    (ivs : Nat → List Nat) (chunks : List (List Nat)) : List (List Nat) :=
  encryptFrom enc ivs 0 chunks

/-- Draining the full encrypted byte stream recovers every chunk and
leaves an empty buffer. -/
theorem drainBuffer_encryptFrom (enc : List Nat → List Nat → List Nat)
    (dec : List Nat → List Nat → Option (List Nat)) (ivs : Nat → List Nat)
    (hiv : ∀ i, (ivs i).length = 12)
    (hdec : ∀ iv pt, dec iv (enc iv pt) = some pt)
    (chunks : List (List Nat))
    (hlen : ∀ c ∈ chunks, ∀ i, 12 + (enc (ivs i) c).length < 4294967296) :
    ∀ k, drainBuffer dec (encryptFrom enc ivs k chunks).join = some (chunks, []) := by
  induction chunks with
  | nil =>
    intro k
    rw [encryptFrom]
    exact drainBuffer_short dec [] (by simp)
  | cons c cs ih =>
    intro k
    have hLlt : (ivs k ++ enc (ivs k) c).length < 4294967296 := by
      have := hlen c (List.mem_cons_self c cs) k
      simp only [List.length_append, hiv k]
      omega
    have hval : be4val ((ivs k ++ enc (ivs k) c).length / 16777216 % 256)
        ((ivs k ++ enc (ivs k) c).length / 65536 % 256)
        ((ivs k ++ enc (ivs k) c).length / 256 % 256)
        ((ivs k ++ enc (ivs k) c).length % 256) = (ivs k ++ enc (ivs k) c).length :=
      be4val_be4encode _ hLlt
    rw [encryptFrom]
    rw [show ((be4encode (ivs k ++ enc (ivs k) c).length :: (ivs k ++ enc (ivs k) c)
        :: encryptFrom enc ivs (k + 1) cs).join)
      = ((ivs k ++ enc (ivs k) c).length / 16777216 % 256)
        :: ((ivs k ++ enc (ivs k) c).length / 65536 % 256)
        :: ((ivs k ++ enc (ivs k) c).length / 256 % 256)
        :: ((ivs k ++ enc (ivs k) c).length % 256)
        :: ((ivs k ++ enc (ivs k) c) ++ (encryptFrom enc ivs (k + 1) cs).join) by
      simp [be4encode, List.join]]
    rw [drainBuffer, hval]
    rw [if_neg (by simp only [List.length_append]; omega)]
    rw [List.take_append_of_le_length (by simp), List.take_length]
    rw [show (ivs k ++ enc (ivs k) c).take 12 = ivs k by
      rw [show (12 : Nat) = (ivs k).length from (hiv k).symm]
      exact List.take_left _ _]
    rw [show (ivs k ++ enc (ivs k) c).drop 12 = enc (ivs k) c by
      rw [show (12 : Nat) = (ivs k).length from (hiv k).symm]
      exact List.drop_left _ _]
    rw [hdec]
    rw [List.drop_append_of_le_length (by simp), List.drop_length, List.nil_append]
    rw [ih (by intro x hx i; exact hlen x (List.mem_cons_of_mem c hx) i) (k + 1)]
    rfl

/-- **C1.** For every plaintext byte sequence (fed to the pipeline in any
fragmentation) and any key (abstracted as an AEAD `enc`/`dec` pair agreeing
on it, with 12-byte IVs, as WebCrypto AES-GCM provides), piping the
plaintext through `createChunkingStream` (any positive chunk size), then
`createEncryptionStream`, then re-fragmenting the resulting byte stream
arbitrarily (including 1-byte fragments: any `netFrags` with the same
concatenation), then `createDecryptionStream`, succeeds and yields exactly
the original plaintext. -/
theorem claim_C1_roundtrip
    (enc : List Nat → List Nat → List Nat)
    (dec : List Nat → List Nat → Option (List Nat))
    (ivs : Nat → List Nat) (chunkSize : Nat)
    (plaintextFrags netFrags : List (List Nat))
    (hcs : 0 < chunkSize)
    (hiv : ∀ i, (ivs i).length = 12)
    (hdec : ∀ iv pt, dec iv (enc iv pt) = some pt)
    (hbound : ∀ iv pt, pt.length ≤ chunkSize → 12 + (enc iv pt).length < 4294967296)
    (hrefrag : netFrags.join =
      (createEncryptionStream enc ivs
        (createChunkingStream chunkSize plaintextFrags)).join) :
    createDecryptionStream dec netFrags =
        some (createChunkingStream chunkSize plaintextFrags) ∧
      (createChunkingStream chunkSize plaintextFrags).join = plaintextFrags.join := by
  have hchunks := createChunkingStream_mem chunkSize plaintextFrags hcs
  have hdrain := drainBuffer_encryptFrom enc dec ivs hiv hdec
    (createChunkingStream chunkSize plaintextFrags)
    (fun c hc i => hbound (ivs i) c (hchunks c hc).2) 0
  constructor
  · rw [createDecryptionStream_join, hrefrag, createEncryptionStream, hdrain]
    rfl
  · exact createChunkingStream_join chunkSize plaintextFrags

/-- A trivial AEAD instance (identity cipher with a 16-byte tag), used
only to witness the round-trip theorem on concrete data. -/
def toyEnc (iv pt : List Nat) : List Nat := pt ++ List.replicate 16 0

/-- Inverse of `toyEnc`: strip the 16-byte tag. -/
def toyDec (iv ct : List Nat) : Option (List Nat) :=
  if 16 ≤ ct.length then some (ct.take (ct.length - 16)) else none

theorem toyDec_toyEnc : ∀ iv pt, toyDec iv (toyEnc iv pt) = some pt := by
  intro iv pt
  rw [toyEnc, toyDec, if_pos (by simp)]
  have h1 : (pt ++ List.replicate 16 0).length - 16 = pt.length := by simp
  rw [h1, List.take_left]

theorem join_map_singleton (l : List Nat) : (l.map (fun b => [b])).join = l := by
  induction l with
  | nil => rfl
  | cons a t ih => simp [ih]

theorem claim_C1_roundtrip_witness :
    createDecryptionStream toyDec
        (((createEncryptionStream toyEnc (fun _ => List.replicate 12 0)
            (createChunkingStream 2 [[1, 2, 3]])).join).map (fun b => [b])) =
        some (createChunkingStream 2 [[1, 2, 3]]) ∧
      (createChunkingStream 2 [[1, 2, 3]]).join = ([[1, 2, 3]] : List (List Nat)).join :=
  claim_C1_roundtrip toyEnc toyDec (fun _ => List.replicate 12 0) 2 [[1, 2, 3]] _
    (by decide) (fun i => by simp) toyDec_toyEnc
    (fun iv pt h => by simp [toyEnc]; omega)
    (join_map_singleton _)

/-! ## Server data model (`backend/database.go`)

A `File` row of the metadata table, and the scan-status constants.
Timestamps are modelled as `Nat`s, byte counts as `Int` (Go `int64`). -/

def ScanStatusPending : String := "pending"

def ScanStatusClean : String := "clean"

def ScanStatusInfected : String := "infected"

def ScanStatusError : String := "error"

def ScanStatusSkipped : String := "skipped"

structure FileRec where
  id : String
  accessCode : String
  filename : String
  sizeBytes : Int
  originalSizeBytes : Int
  isEncrypted : Bool
  encryptionSalt : String
  verificationHash : String
  downloadOnce : Bool
  storageKey : String
  expiresAt : Nat
  createdAt : Nat
  scanStatus : String
  scanResult : String
deriving DecidableEq

inductive HttpMethod
  | GET
  | POST
deriving DecidableEq

/-- A response body: a JSON message, raw file bytes, the metadata row
(`HandleGetFileMeta` returns the row itself), or the upload success
payload `{accessCode, urlPath}`. -/
inductive RespBody
  | msg (s : String)
  | fileData (content : List Nat)
  | metaData (f : FileRec)
  | uploadResult (accessCode urlPath : String)
deriving DecidableEq

structure HttpResponse where
  status : Nat
  body : RespBody
deriving DecidableEq

/-- The storage backend's content, keyed by storage key. -/
abbrev Storage := List (String × List Nat)

def lookupStorage (storage : Storage) (key : String) : Option (List Nat) :=
  (storage.find? fun p => p.1 == key).map Prod.snd

/-- `gorm` `First` on `access_code = ?` (no expiry filter — as in
`HandleDownloadFile`). -/
def findByCode (db : List FileRec) (code : String) : Option FileRec :=
  db.find? fun f => f.accessCode == code

/-- `gorm` `First` on `access_code = ? AND expires_at > ?` (as in
`HandleGetFileMeta`, `HandlePreviewFile`, `HandlePreviewDataURI`). -/
def findLiveByCode (db : List FileRec) (now : Nat) (code : String) : Option FileRec :=
  db.find? fun f => f.accessCode == code && decide (now < f.expiresAt)

/-- `c.File(path)`: serve the stored bytes, or the `net/http` 404 page if
the object is gone. -/
def serveFile (storage : Storage) (f : FileRec) : HttpResponse :=
  match lookupStorage storage f.storageKey with
  | some content => ⟨200, RespBody.fileData content⟩
  | none => ⟨404, RespBody.msg "404 page not found"⟩

/-! ## Download / metadata / preview handlers (`backend/handlers.go`) -/

/-- `HandleDownloadFile` (GET/POST `/data/:code`).  `payload` is the parsed
`verificationHash` of a POST body (`none` for a missing/invalid body). -/
def handleDownloadFile (storage : Storage) (db : List FileRec) (now : Nat)
    (code : String) (method : HttpMethod) (payload : Option String) : HttpResponse :=
  match findByCode db code with
  | none => ⟨404, RespBody.msg "文件不存在"⟩
  | some f =>
    if f.expiresAt < now then ⟨404, RespBody.msg "文件已过期"⟩
    else if !f.isEncrypted then serveFile storage f
    else if method ≠ HttpMethod.POST then
      ⟨405, RespBody.msg "下载加密文件需要使用 POST 方法并提供验证信息"⟩
    else
      match payload with
      | none => ⟨400, RespBody.msg "无效的验证请求"⟩
      | some h =>
        if h ≠ f.verificationHash then ⟨401, RespBody.msg "密码错误或文件已损坏"⟩
        else serveFile storage f

/-- `HandleGetFileMeta` (GET `/api/v1/files/meta/:code`). -/
def handleGetFileMeta (db : List FileRec) (now : Nat) (code : String) : HttpResponse :=
  match findLiveByCode db now code with
  | none => ⟨404, RespBody.msg "文件不存在或已过期"⟩
  | some f => ⟨200, RespBody.metaData f⟩

/-- `HandlePreviewFile` (GET `/api/v1/preview/:code`). -/
def handlePreviewFile (storage : Storage) (db : List FileRec) (now : Nat)
    (code : String) : HttpResponse :=
  match findLiveByCode db now code with
  | none => ⟨404, RespBody.msg "文件不存在或已过期"⟩
  | some f =>
    if f.isEncrypted then ⟨403, RespBody.msg "加密文件无法在服务器端预览"⟩
    else if f.scanStatus == ScanStatusInfected then
      ⟨403, RespBody.msg "检测到威胁，已禁止预览此文件"⟩
    else
      match lookupStorage storage f.storageKey with
      | none => ⟨500, RespBody.msg "无法读取文件内容"⟩
      | some content => ⟨200, RespBody.fileData content⟩

/-- A sample plaintext row used by concrete counterexamples/witnesses. -/
def sampleFile : FileRec :=
  { id := "id1"
    accessCode := "AAAAAA"
    filename := "a.txt"
    sizeBytes := 3
    originalSizeBytes := 3
    isEncrypted := false
    encryptionSalt := ""
    verificationHash := ""
    downloadOnce := false
    storageKey := "tempshare-files/id1"
    expiresAt := 5
    createdAt := 1
    scanStatus := "clean"
    scanResult := "文件安全" }

/-- If every row carrying this code is expired (`expiresAt ≤ now`), the
live-row query finds nothing — exactly as when the code never existed. -/
theorem findLiveByCode_eq_none {db : List FileRec} {now : Nat} {code : String}
    (h : ∀ f ∈ db, f.accessCode = code → f.expiresAt ≤ now) :
    findLiveByCode db now code = none := by
  rw [findLiveByCode, List.find?_eq_none]
  intro f hf
  simp only [Bool.and_eq_true, beq_iff_eq, decide_eq_true_eq, not_and]
  intro hcode hlt
  exact absurd hlt (Nat.not_lt.mpr (h f hf hcode))

/-- **C2 (counterexample).** The download endpoint's 404 responses are
*not* identical for a never-existing code and an expired code: the body
says "file does not exist" in one case and "file expired" in the other
(`db` holds one row, code `AAAAAA`, expired at 5, queried at 10). -/
theorem claim_C2_counterexample :
    handleDownloadFile [] [sampleFile] 10 "BBBBBB" HttpMethod.GET none
      ≠ handleDownloadFile [] [sampleFile] 10 "AAAAAA" HttpMethod.GET none := by
  decide

/-- **C2 (amended).** The metadata endpoint `GET /files/meta/:code` is
uniform: never-existed and expired (`expiresAt ≤ now`) produce the byte-
identical 404 response.  The download endpoint `/data/:code` returns
status 404 in both cases (where its expiry test is the strict
`expiresAt < now`), but with *different* bodies ("文件不存在" vs
"文件已过期"), so a download client can distinguish the two. -/
theorem claim_C2_amended (storage : Storage) (db : List FileRec) (now : Nat)
    (code : String) (method : HttpMethod) (payload : Option String)
    (hnolive : ∀ f ∈ db, f.accessCode = code → f.expiresAt ≤ now) :
    handleGetFileMeta db now code = ⟨404, RespBody.msg "文件不存在或已过期"⟩ ∧
      (findByCode db code = none →
        handleDownloadFile storage db now code method payload
          = ⟨404, RespBody.msg "文件不存在"⟩) ∧
      (∀ f, findByCode db code = some f → f.expiresAt < now →
        handleDownloadFile storage db now code method payload
          = ⟨404, RespBody.msg "文件已过期"⟩) ∧
      RespBody.msg "文件不存在" ≠ RespBody.msg "文件已过期" := by
  refine ⟨?_, ?_, ?_, by decide⟩
  · rw [handleGetFileMeta, findLiveByCode_eq_none hnolive]
  · intro hnone
    rw [handleDownloadFile, hnone]
  · intro f hsome hexp
    rw [handleDownloadFile, hsome]
    simp only [if_pos hexp]

theorem claim_C2_amended_witness :
    (∀ f ∈ [sampleFile], f.accessCode = "AAAAAA" → f.expiresAt ≤ 10) ∧
      handleGetFileMeta [sampleFile] 10 "AAAAAA"
        = ⟨404, RespBody.msg "文件不存在或已过期"⟩ :=
  ⟨by decide, (claim_C2_amended [] [sampleFile] 10 "AAAAAA" HttpMethod.GET none
    (by decide)).1⟩

/-- **C8 (counterexample).** At the boundary `expiresAt = now` the claim
says every lookup path returns 404, but `HandleDownloadFile`'s expiry
check is the strict `time.Now().After(expiresAt)`, so the file is still
served: with `expiresAt = now = 5` the download responds 200. -/
theorem claim_C8_counterexample :
    (handleDownloadFile [("tempshare-files/id1", [7])] [sampleFile] 5 "AAAAAA"
      HttpMethod.GET none).status = 200 := by
  decide

/-- **C8 (amended).** Reachability is decided by the expiry comparison
alone, independent of whether the reaper has deleted the row or the
object yet (the statement quantifies over every storage content and
every db in which the code's rows are expired): metadata and preview
return 404 whenever `expiresAt ≤ now`; the download path returns 404
whenever `expiresAt < now` (its comparison is strict, so at
`expiresAt = now` it still serves). -/
theorem claim_C8_amended (storage : Storage) (db : List FileRec) (now : Nat)
    (code : String) (method : HttpMethod) (payload : Option String)
    (hexp : ∀ f ∈ db, f.accessCode = code → f.expiresAt ≤ now) :
    handleGetFileMeta db now code = ⟨404, RespBody.msg "文件不存在或已过期"⟩ ∧
      handlePreviewFile storage db now code
        = ⟨404, RespBody.msg "文件不存在或已过期"⟩ ∧
      ((∀ f ∈ db, f.accessCode = code → f.expiresAt < now) →
        (handleDownloadFile storage db now code method payload).status = 404) := by
  refine ⟨?_, ?_, ?_⟩
  · rw [handleGetFileMeta, findLiveByCode_eq_none hexp]
  · rw [handlePreviewFile, findLiveByCode_eq_none hexp]
  · intro hstrict
    rw [handleDownloadFile]
    cases hfind : findByCode db code with
    | none => rfl
    | some f =>
      have hmem : f ∈ db := List.mem_of_find?_eq_some hfind
      have hcode : f.accessCode = code := by
        have := List.find?_some hfind
        simpa using this
      simp [hstrict f hmem hcode]

theorem claim_C8_amended_witness :
    (∀ f ∈ [sampleFile], f.accessCode = "AAAAAA" → f.expiresAt ≤ 10) ∧
      handlePreviewFile [] [sampleFile] 10 "AAAAAA"
        = ⟨404, RespBody.msg "文件不存在或已过期"⟩ :=
  ⟨by decide, (claim_C8_amended [] [sampleFile] 10 "AAAAAA" HttpMethod.GET none
    (by decide)).2.1⟩

/-! ## Burn-after-read (`handleDownloadOnce` in `backend/handlers.go`)

`handleDownloadOnce` schedules an asynchronous burn task iff the row has
`DownloadOnce` set and the response status after serving is 200.  The
task (after a 2-second grace sleep, not modelled) removes the storage
object with `os.Remove` and then deletes the metadata row; a failure in
either step is only logged. -/

/-- Whether `handleDownloadOnce` spawns the burn goroutine. -/
def scheduleBurn (f : FileRec) (respStatus : Nat) : Bool :=
  f.downloadOnce && respStatus == 200

inductive DeleteAction
  | deleteObject (key : String)
  | deleteRow (id : String)
deriving DecidableEq

/-- The burn task's effects, in source order: storage object first,
metadata row second. -/
def burnActions (f : FileRec) : List DeleteAction :=
  [DeleteAction.deleteObject f.storageKey, DeleteAction.deleteRow f.id]

structure ServerState where
  storage : Storage
  db : List FileRec
deriving DecidableEq

/-- Apply one deletion; `objFail`/`rowFail` model an `os.Remove` error or
a DB delete error (which the code only logs: a failed deletion leaves the
item in place and execution continues). -/
def applyDelete (objFail rowFail : String → Bool) (st : ServerState) :
    DeleteAction → ServerState
  | DeleteAction.deleteObject key =>
    if objFail key then st else ⟨st.storage.filter (fun p => p.1 != key), st.db⟩
  | DeleteAction.deleteRow id =>
    if rowFail id then st else ⟨st.storage, st.db.filter (fun f => f.id != id)⟩

/-- The burn task body, as the sequence of its two deletions. -/
def runBurnTask (objFail rowFail : String → Bool) (st : ServerState)
    (f : FileRec) : ServerState :=
  (burnActions f).foldl (applyDelete objFail rowFail) st

/-- **C9.** For a `downloadOnce` object: the burn task is scheduled iff
the response status after serving is 200; the task deletes the storage
object first and the metadata row second (`burnActions`' order); a
deletion error is tolerated (even if the object removal fails the row is
still deleted, and no row with the code survives); and in the sequential
(non-concurrent) case the first download succeeds with the stored bytes
while any download or metadata lookup after the burn returns
not-found. -/
theorem claim_C9_burn_after_read (storage : Storage) (db : List FileRec)
    (now : Nat) (code : String) (f : FileRec) (content : List Nat)
    (objFail : String → Bool)
    (hfind : findByCode db code = some f)
    (henc : f.isEncrypted = false)
    (honce : f.downloadOnce = true)
    (hlive : ¬ f.expiresAt < now)
    (hcontent : lookupStorage storage f.storageKey = some content)
    (huniq : ∀ g ∈ db, g.accessCode = code → g.id = f.id) :
    (∀ s, scheduleBurn f s = true ↔ s = 200) ∧
      burnActions f
        = [DeleteAction.deleteObject f.storageKey, DeleteAction.deleteRow f.id] ∧
      handleDownloadFile storage db now code HttpMethod.GET none
        = ⟨200, RespBody.fileData content⟩ ∧
      (∀ g ∈ (runBurnTask objFail (fun _ => false) ⟨storage, db⟩ f).db,
        g.accessCode ≠ code) ∧
      handleDownloadFile
          (runBurnTask objFail (fun _ => false) ⟨storage, db⟩ f).storage
          (runBurnTask objFail (fun _ => false) ⟨storage, db⟩ f).db
          now code HttpMethod.GET none
        = ⟨404, RespBody.msg "文件不存在"⟩ ∧
      handleGetFileMeta (runBurnTask objFail (fun _ => false) ⟨storage, db⟩ f).db
          now code
        = ⟨404, RespBody.msg "文件不存在或已过期"⟩ := by
  have hdbAfter : (runBurnTask objFail (fun _ => false) ⟨storage, db⟩ f).db
      = db.filter (fun g => g.id != f.id) := by
    rw [runBurnTask, burnActions, List.foldl_cons, List.foldl_cons, List.foldl_nil,
      applyDelete]
    by_cases hob : objFail f.storageKey
    · rw [if_pos hob, applyDelete, if_neg (by simp)]
    · rw [if_neg hob, applyDelete, if_neg (by simp)]
  have hnone : ∀ g ∈ (runBurnTask objFail (fun _ => false) ⟨storage, db⟩ f).db,
      g.accessCode ≠ code := by
    intro g hg hcode
    rw [hdbAfter] at hg
    have hsurv := List.of_mem_filter hg
    have hid : g.id = f.id := huniq g (List.mem_of_mem_filter hg) hcode
    simp [hid] at hsurv
  have hfindAfter : findByCode
      (runBurnTask objFail (fun _ => false) ⟨storage, db⟩ f).db code = none := by
    rw [findByCode, List.find?_eq_none]
    intro g hg
    simpa using hnone g hg
  refine ⟨?_, rfl, ?_, hnone, ?_, ?_⟩
  · intro s
    rw [scheduleBurn, honce]
    simp
  · rw [handleDownloadFile, hfind]
    simp [if_neg hlive, henc, serveFile, hcontent]
  · rw [handleDownloadFile, hfindAfter]
  · rw [handleGetFileMeta, findLiveByCode_eq_none]
    intro g hg hcode
    exact absurd hcode (hnone g (by exact hg))

theorem claim_C9_burn_after_read_witness :
    handleDownloadFile [("tempshare-files/id1", [7])]
        [{ sampleFile with downloadOnce := true }] 4 "AAAAAA" HttpMethod.GET none
      = ⟨200, RespBody.fileData [7]⟩ ∧
    handleDownloadFile
        (runBurnTask (fun _ => false) (fun _ => false)
          ⟨[("tempshare-files/id1", [7])], [{ sampleFile with downloadOnce := true }]⟩
          { sampleFile with downloadOnce := true }).storage
        (runBurnTask (fun _ => false) (fun _ => false)
          ⟨[("tempshare-files/id1", [7])], [{ sampleFile with downloadOnce := true }]⟩
          { sampleFile with downloadOnce := true }).db
        4 "AAAAAA" HttpMethod.GET none
      = ⟨404, RespBody.msg "文件不存在"⟩ :=
  let h := claim_C9_burn_after_read [("tempshare-files/id1", [7])]
    [{ sampleFile with downloadOnce := true }] 4 "AAAAAA"
    { sampleFile with downloadOnce := true } [7] (fun _ => false)
    (by decide) (by decide) (by decide) (by decide) (by decide) (by decide)
  ⟨h.2.2.1, h.2.2.2.2.1⟩

/-! ## Public listing (`HandleGetPublicFiles` in `backend/handlers.go`)

`SELECT access_code, filename, size_bytes, expires_at, is_encrypted
 WHERE expires_at > now AND is_encrypted = false AND download_once = false
 ORDER BY created_at DESC LIMIT 20`. -/

/-- The five columns the public listing selects: everything else
(verification hash, storage key, scan data, …) is not exposed. -/
structure PublicEntry where
  accessCode : String
  filename : String
  sizeBytes : Int
  expiresAt : Nat
  isEncrypted : Bool
deriving DecidableEq

def toPublicEntry (f : FileRec) : PublicEntry :=
  ⟨f.accessCode, f.filename, f.sizeBytes, f.expiresAt, f.isEncrypted⟩

/-- The `WHERE` clause of the public listing. -/
def publicPred (now : Nat) (f : FileRec) : Bool :=
  decide (now < f.expiresAt) && !f.isEncrypted && !f.downloadOnce

/-- `ORDER BY created_at DESC`. -/
def newerFirst (a b : FileRec) : Prop := b.createdAt ≤ a.createdAt

instance : DecidableRel newerFirst := fun a b => Nat.decLe _ _

instance : IsTotal FileRec newerFirst :=
  ⟨fun a b => Nat.le_total b.createdAt a.createdAt⟩

instance : IsTrans FileRec newerFirst :=
  ⟨fun _ _ _ hab hbc => Nat.le_trans hbc hab⟩

/-- `HandleGetPublicFiles`' result rows. -/
def handleGetPublicFiles (db : List FileRec) (now : Nat) : List PublicEntry :=
  (((db.filter (publicPred now)).insertionSort newerFirst).take 20).map toPublicEntry

/-- **C10.** The public listing returns only rows that are simultaneously
unexpired (`now < expiresAt`), not encrypted and not `downloadOnce`; it
returns at most 20 entries, ordered newest-first by creation time, and
each entry carries only the five public columns (`PublicEntry`).  Every
qualifying plaintext, non-burn row is discoverable without its access
code: whenever at most 20 rows qualify, each of them is listed. -/
theorem claim_C10_public_listing (db : List FileRec) (now : Nat) :
    (handleGetPublicFiles db now).length ≤ 20 ∧
      (∀ e ∈ handleGetPublicFiles db now, ∃ f ∈ db,
        now < f.expiresAt ∧ f.isEncrypted = false ∧ f.downloadOnce = false ∧
          e = toPublicEntry f) ∧
      List.Sorted newerFirst ((db.filter (publicPred now)).insertionSort newerFirst) ∧
      handleGetPublicFiles db now
        = (((db.filter (publicPred now)).insertionSort newerFirst).take 20).map
            toPublicEntry ∧
      (∀ f ∈ db, publicPred now f = true →
        (db.filter (publicPred now)).length ≤ 20 →
          toPublicEntry f ∈ handleGetPublicFiles db now) := by
  refine ⟨?_, ?_, List.sorted_insertionSort newerFirst _, rfl, ?_⟩
  · rw [handleGetPublicFiles, List.length_map]
    exact le_trans (List.length_take_le 20 _) (le_refl _)
  · intro e he
    rw [handleGetPublicFiles] at he
    obtain ⟨f, hf, rfl⟩ := List.mem_map.mp he
    have hf' : f ∈ (db.filter (publicPred now)).insertionSort newerFirst :=
      List.take_subset 20 _ hf
    have hf'' : f ∈ db.filter (publicPred now) :=
      (List.perm_insertionSort newerFirst _).subset hf'
    have hmem : f ∈ db := List.mem_of_mem_filter hf''
    have hpred : publicPred now f = true := List.of_mem_filter hf''
    rw [publicPred] at hpred
    simp only [Bool.and_eq_true, decide_eq_true_eq, Bool.not_eq_true'] at hpred
    exact ⟨f, hmem, hpred.1.1, hpred.1.2, hpred.2, rfl⟩
  · intro f hmem hpred hlen
    have hf1 : f ∈ db.filter (publicPred now) := List.mem_filter_of_mem hmem hpred
    have hf2 : f ∈ (db.filter (publicPred now)).insertionSort newerFirst :=
      ((List.perm_insertionSort newerFirst _).symm).subset hf1
    have hlen2 : ((db.filter (publicPred now)).insertionSort newerFirst).length ≤ 20 :=
      le_trans (le_of_eq (List.Perm.length_eq (List.perm_insertionSort newerFirst _)))
        hlen
    rw [handleGetPublicFiles]
    exact List.mem_map_of_mem toPublicEntry
      (by rwa [List.take_of_length_le hlen2])

/-! ## Scanner (`backend/scanner.go`) and scan policy

`ScanFile` maps the clamd interaction's outcome to a
`(scanStatus, scanResult)` pair; `HandleStreamUpload` decides whether to
call it at all. -/

/-- Outcome of the clamd interaction for one file (the scanner is an
external service; its answer is an input of the model). -/
inductive ScanOutcome
  | noClient
  | commError
  | found (virus : String)
  | resError (detail : String)
  | cleanOk
deriving DecidableEq

/-- `ClamdScanner.ScanFile`. -/
def ScanFile : ScanOutcome → String × String
  | ScanOutcome.noClient => (ScanStatusSkipped, "扫描器未初始化")
  | ScanOutcome.commError => (ScanStatusError, "Clamd扫描通信失败")
  | ScanOutcome.found v => (ScanStatusInfected, v)
  | ScanOutcome.resError d => (ScanStatusError, d)
  | ScanOutcome.cleanOk => (ScanStatusClean, "文件安全")

def twentyFourHoursInSeconds : Int := 24 * 60 * 60

/-- The scan decision of `HandleStreamUpload` (handlers.go lines 92-102):
encrypted → `clean` with the e2ee annotation; positive TTL under 24h →
`skipped`; otherwise scan synchronously and record the verdict. -/
def decideScanPolicy (isEncrypted : Bool) (expiresInSeconds : Int)
    (scan : ScanOutcome) : String × String :=
  if isEncrypted then (ScanStatusClean, "端到端加密文件，服务器未扫描")
  else if 0 < expiresInSeconds ∧ expiresInSeconds < twentyFourHoursInSeconds then
    (ScanStatusSkipped, "短期文件，已跳过病毒扫描")
  else ScanFile scan

/-! ## Access-code generation (`generateUniqueAccessCode` in handlers.go) -/

def codeChars : String := "ABCDEFGHJKLMNPQRSTUVWXYZ23456789"

/-- `codeChars[int(b) % len(codeChars)]`. -/
def codeCharAt (b : Nat) : Char :=
  codeChars.toList.getD (b % codeChars.length) 'A'

/-- One attempt's code: `length` random bytes, each mapped into the
alphabet.  `randBytes j` is the `j`-th byte `crypto/rand` filled in. -/
def attemptCode (length : Nat) (randBytes : Nat → Nat) : String :=
  String.mk ((List.range length).map fun j => codeCharAt (randBytes j))

/-- The uniqueness check: `count(access_code = code AND expires_at > now) ≠ 0`. -/
def isLiveCode (db : List FileRec) (now : Nat) (code : String) : Bool :=
  db.any fun f => f.accessCode == code && decide (now < f.expiresAt)

/-- The retry loop: `k` attempts left, `i` the current attempt index
(`rnd i` is that attempt's random byte buffer). -/
def genAttempts (db : List FileRec) (now : Nat) (length : Nat)
    (rnd : Nat → Nat → Nat) : Nat → Nat → Option String
  | 0, _ => none
  | k + 1, i =>
    if isLiveCode db now (attemptCode length (rnd i)) then
      genAttempts db now length rnd k (i + 1)
    else some (attemptCode length (rnd i))

/-- `generateUniqueAccessCode`: 20 attempts, then give up. -/
def generateUniqueAccessCode (db : List FileRec) (now : Nat) (length : Nat)
    (rnd : Nat → Nat → Nat) : Option String :=
  genAttempts db now length rnd 20 0

theorem genAttempts_eq_none (db : List FileRec) (now : Nat) (length : Nat)
    (rnd : Nat → Nat → Nat) :
    ∀ k i, genAttempts db now length rnd k i = none ↔
      ∀ j < k, isLiveCode db now (attemptCode length (rnd (i + j))) = true := by
  intro k
  induction k with
  | zero => intro i; simp [genAttempts]
  | succ k ih =>
    intro i
    rw [genAttempts]
    by_cases hl : isLiveCode db now (attemptCode length (rnd i)) = true
    · rw [if_pos hl, ih (i + 1)]
      constructor
      · intro h j hj
        rcases Nat.eq_zero_or_pos j with rfl | hpos
        · simpa using hl
        · have := h (j - 1) (by omega)
          rw [show i + 1 + (j - 1) = i + j by omega] at this
          exact this
      · intro h j hj
        have := h (j + 1) (by omega)
        rw [show i + (j + 1) = i + 1 + j by omega] at this
        exact this
    · rw [if_neg hl]
      constructor
      · intro h
        exact absurd h (by simp)
      · intro h
        exact absurd (by simpa using h 0 (by omega)) hl

theorem genAttempts_eq_some (db : List FileRec) (now : Nat) (length : Nat)
    (rnd : Nat → Nat → Nat) :
    ∀ k i code, genAttempts db now length rnd k i = some code →
      ∃ j < k, code = attemptCode length (rnd (i + j)) ∧
        isLiveCode db now code = false := by
  intro k
  induction k with
  | zero => intro i code h; simp [genAttempts] at h
  | succ k ih =>
    intro i code h
    rw [genAttempts] at h
    by_cases hl : isLiveCode db now (attemptCode length (rnd i)) = true
    · rw [if_pos hl] at h
      obtain ⟨j, hj, hcode, hlive⟩ := ih (i + 1) code h
      exact ⟨j + 1, by omega, by rwa [show i + (j + 1) = i + 1 + j by omega], hlive⟩
    · rw [if_neg hl] at h
      simp only [Option.some.injEq] at h
      exact ⟨0, by omega, by simp [h.symm],
        by rw [← h]; exact Bool.eq_false_iff.mpr hl⟩

/-- Every mapped byte lands in the alphabet. -/
theorem codeCharAt_mem (b : Nat) : codeCharAt b ∈ codeChars.toList := by
  rw [codeCharAt]
  have hlt : b % codeChars.length < codeChars.toList.length := by
    have : b % codeChars.length < codeChars.length :=
      Nat.mod_lt b (by decide)
    simpa using this
  rw [List.getD_eq_get _ _ hlt]
  exact List.get_mem _ _ hlt

set_option maxRecDepth 2000 in
/-- **C6.** Access-code generation: the alphabet is a fixed 32-character
set without the confusable `I`, `O`, `0`, `1`; each code character is
drawn uniformly (every alphabet character has exactly 8 of the 256 byte
values mapping to it); a 6-character code is produced; uniqueness is
checked only against rows with `expiresAt` in the future (a code
colliding only with expired rows is accepted on the spot); at most 20
attempts are made, and the generator fails if and only if all 20
attempts collide with a live code. -/
theorem claim_C6_access_code_generation (db : List FileRec) (now : Nat)
    (rnd : Nat → Nat → Nat) :
    codeChars.length = 32 ∧
      ('I' ∉ codeChars.toList ∧ 'O' ∉ codeChars.toList ∧
        '0' ∉ codeChars.toList ∧ '1' ∉ codeChars.toList) ∧
      (∀ c ∈ codeChars.toList,
        ((List.range 256).filter fun b => codeCharAt b == c).length = 8) ∧
      (generateUniqueAccessCode db now 6 rnd = none ↔
        ∀ j < 20, isLiveCode db now (attemptCode 6 (rnd j)) = true) ∧
      (∀ code, generateUniqueAccessCode db now 6 rnd = some code →
        code.length = 6 ∧ (∀ ch ∈ code.toList, ch ∈ codeChars.toList) ∧
          isLiveCode db now code = false ∧
          ∃ j < 20, code = attemptCode 6 (rnd j)) ∧
      ((∀ f ∈ db, f.accessCode = attemptCode 6 (rnd 0) → f.expiresAt ≤ now) →
        generateUniqueAccessCode db now 6 rnd = some (attemptCode 6 (rnd 0))) := by
  refine ⟨by decide, by decide, by decide, ?_, ?_, ?_⟩
  · rw [generateUniqueAccessCode, genAttempts_eq_none]
    simp
  · intro code h
    obtain ⟨j, hj, hcode, hlive⟩ :=
      genAttempts_eq_some db now 6 rnd 20 0 code h
    subst hcode
    refine ⟨by simp [attemptCode], ?_, hlive, j, hj, by rw [Nat.zero_add]⟩
    intro ch hch
    have hch' : ∃ a, a < 6 ∧ codeCharAt (rnd (0 + j) a) = ch := by
      simpa [attemptCode] using hch
    obtain ⟨b, -, rfl⟩ := hch'
    exact codeCharAt_mem _
  · intro h
    have hnl : isLiveCode db now (attemptCode 6 (rnd 0)) = false := by
      rw [isLiveCode]
      rw [List.any_eq_false]
      intro f hf
      simp only [Bool.and_eq_true, beq_iff_eq, decide_eq_true_eq, not_and]
      intro hcode hlt
      exact absurd hlt (Nat.not_lt.mpr (h f hf hcode))
    rw [generateUniqueAccessCode, genAttempts,
      if_neg (by rw [hnl]; exact Bool.false_ne_true)]

theorem claim_C6_access_code_generation_witness :
    generateUniqueAccessCode [sampleFile] 10 6 (fun _ j => j)
      = some (attemptCode 6 (fun j => j)) :=
  (claim_C6_access_code_generation [sampleFile] 10 (fun _ j => j)).2.2.2.2.2
    (by decide)

/-! ## The upload pipeline (`HandleStreamUpload` in handlers.go)

Inputs of one request, beyond the server state: the parsed headers, the
fresh UUID `fileId`, the outcome of streaming the body into the storage
file (`io.Copy` under `http.MaxBytesReader`), the scanner's answer, the
random supply for access codes, and whether the DB insert succeeds. -/

structure UploadReq where
  fileName : String
  originalSize : Int
  isEncrypted : Bool
  salt : String
  verificationHash : String
  expiresInSeconds : Int
  downloadOnce : Bool
deriving DecidableEq

/-- Outcome of `io.Copy(outFile, c.Request.Body)`. -/
inductive BodyOutcome
  | ok (content : List Nat)
  | tooLarge
  | ioError
deriving DecidableEq

/-- `filepath.Join(finalFileDir, finalFileId)`. -/
def storageKeyOf (fileId : String) : String := "tempshare-files/" ++ fileId

/-- `expiresAt`: `now + TTL` for a positive TTL, else the 7-day default. -/
def computeExpiresAt (now : Nat) (expiresInSeconds : Int) : Nat :=
  if 0 < expiresInSeconds then now + expiresInSeconds.toNat
  else now + 7 * 24 * 60 * 60

/-- The metadata row `HandleStreamUpload` inserts. -/
def mkFileRow (req : UploadReq) (fileId : String) (written : Int) (now : Nat)
    (scanPair : String × String) (accessCode : String) : FileRec :=
  { id := fileId
    accessCode := accessCode
    filename := req.fileName
    sizeBytes := written
    originalSizeBytes := req.originalSize
    isEncrypted := req.isEncrypted
    encryptionSalt := req.salt
    verificationHash := req.verificationHash
    downloadOnce := req.downloadOnce
    storageKey := storageKeyOf fileId
    expiresAt := computeExpiresAt now req.expiresInSeconds
    createdAt := now
    scanStatus := scanPair.1
    scanResult := scanPair.2 }

/-- `HandleStreamUpload`: header validation, stream to storage, scan
decision, access-code generation, row insert — with the compensating
`os.Remove(finalFilePath)` on every failure after the storage write, so
the returned state reflects the net effect of the request. -/
def handleStreamUpload (st : ServerState) (now : Nat) (req : UploadReq)
    (fileId : String) (body : BodyOutcome) (scan : ScanOutcome)
    (rnd : Nat → Nat → Nat) (dbInsertOk : Bool) : HttpResponse × ServerState :=
  if req.fileName = "" then
    (⟨400, RespBody.msg "无效或缺失的文件名 (X-File-Name)"⟩, st)
  else
    match body with
    | BodyOutcome.tooLarge => (⟨413, RespBody.msg "文件大小不能超过限制"⟩, st)
    | BodyOutcome.ioError => (⟨500, RespBody.msg "文件上传中断"⟩, st)
    | BodyOutcome.ok content =>
      match generateUniqueAccessCode st.db now 6 rnd with
      | none => (⟨500, RespBody.msg "无法生成分享码"⟩, st)
      | some code =>
        if dbInsertOk then
          (⟨201, RespBody.uploadResult code ("/download/" ++ code)⟩,
            ⟨(storageKeyOf fileId, content) :: st.storage,
              mkFileRow req fileId (content.length : Int) now
                (decideScanPolicy req.isEncrypted req.expiresInSeconds scan) code
                :: st.db⟩)
        else (⟨500, RespBody.msg "无法保存文件记录"⟩, st)

/-- **C3.** The stored scan status: encrypted uploads are recorded
`clean` with the "e2ee, unscanned" annotation and never scanned; a
positive TTL below the 24h threshold skips scanning with status
`skipped` (which is distinct from `clean`); otherwise the file is
scanned synchronously and the scanner's verdict is what gets recorded —
and a successful upload inserts exactly this pair into the row. -/
theorem claim_C3_scan_status (enc : Bool) (ttl : Int) (scan : ScanOutcome) :
    (enc = true →
      decideScanPolicy enc ttl scan
        = (ScanStatusClean, "端到端加密文件，服务器未扫描")) ∧
      (enc = false → 0 < ttl → ttl < twentyFourHoursInSeconds →
        decideScanPolicy enc ttl scan
          = (ScanStatusSkipped, "短期文件，已跳过病毒扫描")) ∧
      ScanStatusSkipped ≠ ScanStatusClean ∧
      (enc = false → ¬ (0 < ttl ∧ ttl < twentyFourHoursInSeconds) →
        decideScanPolicy enc ttl scan = ScanFile scan) ∧
      (∀ (st : ServerState) (now : Nat) (req : UploadReq) (fileId : String)
          (content : List Nat) (rnd : Nat → Nat → Nat) (code : String),
        req.fileName ≠ "" → req.isEncrypted = enc → req.expiresInSeconds = ttl →
        generateUniqueAccessCode st.db now 6 rnd = some code →
        ∃ row, (handleStreamUpload st now req fileId (BodyOutcome.ok content)
              scan rnd true).2.db = row :: st.db ∧
          row.scanStatus = (decideScanPolicy enc ttl scan).1 ∧
          row.scanResult = (decideScanPolicy enc ttl scan).2) := by
  refine ⟨?_, ?_, by decide, ?_, ?_⟩
  · intro h
    rw [decideScanPolicy, if_pos h]
  · intro h h1 h2
    rw [decideScanPolicy, if_neg (by rw [h]; exact Bool.false_ne_true),
      if_pos ⟨h1, h2⟩]
  · intro h h12
    rw [decideScanPolicy, if_neg (by rw [h]; exact Bool.false_ne_true),
      if_neg h12]
  · intro st now req fileId content rnd code hname henc httl hcode
    subst henc
    subst httl
    rw [handleStreamUpload, if_neg hname]
    simp only [hcode]
    exact ⟨_, rfl, rfl, rfl⟩

theorem claim_C3_scan_status_witness :
    decideScanPolicy true 0 ScanOutcome.cleanOk
      = (ScanStatusClean, "端到端加密文件，服务器未扫描") :=
  (claim_C3_scan_status true 0 ScanOutcome.cleanOk).1 rfl

/-- **C5.** Upload atomicity: a 201 response leaves exactly one new
storage object and exactly one new metadata row (and nothing else); any
other response leaves the server state exactly as before — every failure
after the storage write (body error, code-generation exhaustion, DB
insert error) is compensated by deleting the written object, so no
storage object is left without a metadata row. -/
theorem claim_C5_upload_atomicity (st : ServerState) (now : Nat)
    (req : UploadReq) (fileId : String) (body : BodyOutcome)
    (scan : ScanOutcome) (rnd : Nat → Nat → Nat) (dbInsertOk : Bool) :
    ((handleStreamUpload st now req fileId body scan rnd dbInsertOk).1.status = 201 →
      ∃ content code, body = BodyOutcome.ok content ∧
        generateUniqueAccessCode st.db now 6 rnd = some code ∧
        (handleStreamUpload st now req fileId body scan rnd dbInsertOk).2.storage
          = (storageKeyOf fileId, content) :: st.storage ∧
        (handleStreamUpload st now req fileId body scan rnd dbInsertOk).2.db
          = mkFileRow req fileId (content.length : Int) now
              (decideScanPolicy req.isEncrypted req.expiresInSeconds scan) code
              :: st.db) ∧
    ((handleStreamUpload st now req fileId body scan rnd dbInsertOk).1.status ≠ 201 →
      (handleStreamUpload st now req fileId body scan rnd dbInsertOk).2 = st) := by
  cases body with
  | tooLarge =>
    rw [handleStreamUpload]
    by_cases hname : req.fileName = ""
    · rw [if_pos hname]
      exact ⟨fun h => by simp at h, fun _ => rfl⟩
    · rw [if_neg hname]
      exact ⟨fun h => by simp at h, fun _ => rfl⟩
  | ioError =>
    rw [handleStreamUpload]
    by_cases hname : req.fileName = ""
    · rw [if_pos hname]
      exact ⟨fun h => by simp at h, fun _ => rfl⟩
    · rw [if_neg hname]
      exact ⟨fun h => by simp at h, fun _ => rfl⟩
  | ok content =>
    rw [handleStreamUpload]
    by_cases hname : req.fileName = ""
    · rw [if_pos hname]
      exact ⟨fun h => by simp at h, fun _ => rfl⟩
    · rw [if_neg hname]
      cases hcode : generateUniqueAccessCode st.db now 6 rnd with
      | none =>
        exact ⟨fun h => by simp at h, fun _ => rfl⟩
      | some code =>
        cases dbInsertOk with
        | false =>
          exact ⟨fun h => by simp at h, fun _ => rfl⟩
        | true =>
          exact ⟨fun _ => ⟨content, code, rfl, rfl, rfl, rfl⟩,
            fun h => absurd rfl h⟩

theorem claim_C5_upload_atomicity_witness :
    (handleStreamUpload ⟨[], []⟩ 0
        ⟨"a.txt", 3, false, "", "", 0, false⟩ "id1"
        (BodyOutcome.ok [1, 2, 3]) ScanOutcome.cleanOk (fun _ j => j) false).2
      = (⟨[], []⟩ : ServerState) :=
  (claim_C5_upload_atomicity ⟨[], []⟩ 0 ⟨"a.txt", 3, false, "", "", 0, false⟩
    "id1" (BodyOutcome.ok [1, 2, 3]) ScanOutcome.cleanOk (fun _ j => j) false).2
    (by decide)

theorem claim_C10_public_listing_witness :
    toPublicEntry sampleFile ∈ handleGetPublicFiles [sampleFile] 1 :=
  (claim_C10_public_listing [sampleFile] 1).2.2.2.2 sampleFile
    (by decide) (by decide) (by decide)

/-! ## The per-IP rate limiter (`IPRateLimiter`, `golang.org/x/time/rate`)

`addIP` creates `rate.NewLimiter(requests/duration.Seconds(), requests)`
for an IP's first request — a token bucket with capacity `requests` that
refills at `requests/duration` tokens per second, starting full.
`Allow` advances the bucket to the current time (capping at the burst)
and consumes one token when at least one is available.  Time and tokens
are modelled as exact rationals (Go uses `float64`; the claim's window
arithmetic is unaffected at these magnitudes). -/

structure RateLimiter where
  limit : ℚ
  burst : ℕ
  tokens : ℚ
  last : ℚ
deriving DecidableEq

/-- The limiter `addIP` creates (full bucket). -/
def freshBucket (requests : ℕ) (durationSec : ℚ) (t : ℚ) : RateLimiter :=
  ⟨(requests : ℚ) / durationSec, requests, (requests : ℚ), t⟩

/-- `limit.advance`: tokens accumulated by time `t`, capped at the burst. -/
def advanceTokens (l : RateLimiter) (t : ℚ) : ℚ :=
  min (l.burst : ℚ) (l.tokens + (t - l.last) * l.limit)

/-- `Limiter.Allow` at time `t`. -/
def allowAt (l : RateLimiter) (t : ℚ) : Bool × RateLimiter :=
  if 1 ≤ advanceTokens l t then
    (true, ⟨l.limit, l.burst, advanceTokens l t - 1, t⟩)
  else (false, ⟨l.limit, l.burst, advanceTokens l t, t⟩)

/-- A sequence of requests from one IP at the given times. -/
def runRequests (l : RateLimiter) : List ℚ → List Bool × RateLimiter
  | [] => ([], l)
  | t :: ts =>
    ((allowAt l t).1 :: (runRequests (allowAt l t).2 ts).1,
      (runRequests (allowAt l t).2 ts).2)

/-- `RateLimitMiddleware`: pass the request through, or abort with 429. -/
def rateLimitMiddleware (allowed : Bool) : Option HttpResponse :=
  if allowed then none
  else some ⟨429, RespBody.msg "请求过于频繁，请稍后再试。"⟩

theorem runRequests_append (l : RateLimiter) (xs ys : List ℚ) :
    runRequests l (xs ++ ys)
      = ((runRequests l xs).1 ++ (runRequests (runRequests l xs).2 ys).1,
          (runRequests (runRequests l xs).2 ys).2) := by
  induction xs generalizing l with
  | nil => simp [runRequests]
  | cons x xs ih => simp [runRequests, ih]

/-- Draining a bucket with `c` tokens by `m ≤ c` simultaneous requests:
all are admitted and `c - m` tokens remain. -/
theorem runRequests_drain (limit : ℚ) (N : ℕ) (t : ℚ) :
    ∀ (m c : ℕ), m ≤ c → c ≤ N →
      runRequests ⟨limit, N, (c : ℚ), t⟩ (List.replicate m t)
        = (List.replicate m true, ⟨limit, N, ((c - m : ℕ) : ℚ), t⟩) := by
  intro m
  induction m with
  | zero => intro c hm hc; simp [runRequests]
  | succ m ih =>
    intro c hm hc
    have hadv : advanceTokens ⟨limit, N, (c : ℚ), t⟩ t = (c : ℚ) := by
      rw [advanceTokens]
      simp only [sub_self, zero_mul, add_zero]
      exact min_eq_right (by exact_mod_cast hc)
    have h1le : (1 : ℚ) ≤ (c : ℚ) := by exact_mod_cast (by omega : 1 ≤ c)
    have hallow : allowAt ⟨limit, N, (c : ℚ), t⟩ t
        = (true, ⟨limit, N, ((c - 1 : ℕ) : ℚ), t⟩) := by
      rw [allowAt, hadv, if_pos h1le]
      rw [show ((c : ℚ) - 1) = ((c - 1 : ℕ) : ℚ) by
        rw [Nat.cast_sub (by omega : 1 ≤ c), Nat.cast_one]]
    rw [List.replicate_succ, runRequests, hallow]
    rw [show ((true, (⟨limit, N, ((c - 1 : ℕ) : ℚ), t⟩ : RateLimiter)).2)
        = (⟨limit, N, ((c - 1 : ℕ) : ℚ), t⟩ : RateLimiter) from rfl]
    rw [ih (c - 1) (by omega) (by omega)]
    rw [show c - 1 - m = c - (m + 1) by omega]
    rfl

/-- **C4 (counterexample).** With `requests = 2`, `duration = 2` seconds,
a single IP issues requests at times 0, 0 and 1 — all inside one window
of length 2 — and all three are admitted: the token bucket refills at
`N/D = 1` token/second, so it is not a fixed window admitting exactly
`N` requests per `D`. -/
theorem claim_C4_counterexample :
    (runRequests (freshBucket 2 2 0) [0, 0, 1]).1 = [true, true, true] := by
  norm_num [runRequests, allowAt, advanceTokens, freshBucket]

/-- **C4 (amended).** The limiter is a token bucket with capacity `N` and
refill rate `N/D`: from a full bucket, `N` simultaneous requests all
succeed and the `(N+1)`-th at the same instant is rejected (the
middleware turning a rejection into a 429 and letting admitted requests
through); more requests may succeed inside a window of length `D` as
tokens refill (see the counterexample); and after `D` with no traffic
the bucket is back at full capacity `N` from any non-negative level. -/
theorem claim_C4_amended (N : ℕ) (D t : ℚ) (hN : 0 < N) (hD : 0 < D) :
    (runRequests (freshBucket N D t) (List.replicate (N + 1) t)).1
        = List.replicate N true ++ [false] ∧
      (∀ b : Bool, rateLimitMiddleware b
          = if b then none
            else some ⟨429, RespBody.msg "请求过于频繁，请稍后再试。"⟩) ∧
      (∀ l : RateLimiter, l.limit = (N : ℚ) / D → l.burst = N →
        0 ≤ l.tokens → advanceTokens l (l.last + D) = (N : ℚ)) := by
  refine ⟨?_, fun b => rfl, ?_⟩
  · rw [List.replicate_succ', runRequests_append]
    rw [show freshBucket N D t = ⟨(N : ℚ) / D, N, ((N : ℕ) : ℚ), t⟩ from rfl]
    rw [runRequests_drain ((N : ℚ) / D) N t N N (le_refl N) (le_refl N)]
    have hzero : ((N - N : ℕ) : ℚ) = ((0 : ℕ) : ℚ) := by norm_num
    rw [hzero]
    have hadv0 : advanceTokens ⟨(N : ℚ) / D, N, ((0 : ℕ) : ℚ), t⟩ t = 0 := by
      rw [advanceTokens]
      simp only [sub_self, zero_mul, add_zero, Nat.cast_zero]
      exact min_eq_right (by positivity)
    have hfail : (allowAt ⟨(N : ℚ) / D, N, ((0 : ℕ) : ℚ), t⟩ t).1 = false := by
      rw [allowAt, hadv0, if_neg (by norm_num)]
    rw [show ([t] : List ℚ) = t :: [] from rfl, runRequests, runRequests, hfail]
  · intro l hlim hburst htok
    rw [advanceTokens, hlim, hburst, add_sub_cancel_left,
      mul_comm D ((N : ℚ) / D), div_mul_cancel₀ _ (ne_of_gt hD)]
    exact min_eq_left (by linarith)

theorem claim_C4_amended_witness :
    (runRequests (freshBucket 2 2 0) (List.replicate 3 0)).1
      = List.replicate 2 true ++ [false] :=
  (claim_C4_amended 2 2 0 (by norm_num) (by norm_num)).1

/-! ## The expiry reaper (`cleanup` in `backend/tasks.go`)

One pass: repeatedly query (up to) 100 rows with `expires_at <= now`;
stop when the batch is empty; for each row delete the storage object,
then the DB row, logging and continuing on individual failures.  The
unbounded `for` loop is modelled with fuel: `none` means the loop was
still running when the fuel ran out. -/

/-- Reap one row: storage object first, then the metadata row (failures
only logged — the state keeps the item). -/
def reapRow (objFail rowFail : String → Bool) (st : ServerState) (f : FileRec) :
    ServerState :=
  applyDelete objFail rowFail
    (applyDelete objFail rowFail st (DeleteAction.deleteObject f.storageKey))
    (DeleteAction.deleteRow f.id)

/-- Process a queried batch row by row (a failure on one row does not
stop the remaining rows from being processed). -/
def reapBatch (objFail rowFail : String → Bool) (st : ServerState)
    (batch : List FileRec) : ServerState :=
  batch.foldl (reapRow objFail rowFail) st

/-- `SELECT … WHERE expires_at <= now LIMIT 100`. -/
def expiredBatch (db : List FileRec) (now : Nat) : List FileRec :=
  (db.filter fun f => decide (f.expiresAt ≤ now)).take 100

/-- The pass's `for` loop, with fuel. -/
def cleanupPass (objFail rowFail : String → Bool) (now : Nat) :
    Nat → ServerState → Option ServerState
  | 0, _ => none
  | fuel + 1, st =>
    if (expiredBatch st.db now).isEmpty then some st
    else cleanupPass objFail rowFail now fuel
      (reapBatch objFail rowFail st (expiredBatch st.db now))

theorem applyDelete_deleteObject_db (o r : String → Bool) (st : ServerState)
    (k : String) : (applyDelete o r st (DeleteAction.deleteObject k)).db = st.db := by
  rw [applyDelete]
  by_cases h : o k
  · rw [if_pos h]
  · rw [if_neg h]

theorem applyDelete_deleteRow_db (o r : String → Bool) (st : ServerState)
    (id : String) :
    (applyDelete o r st (DeleteAction.deleteRow id)).db
      = if r id then st.db else st.db.filter fun g => g.id != id := by
  rw [applyDelete]
  by_cases h : r id
  · rw [if_pos h, if_pos h]
  · rw [if_neg h, if_neg h]

theorem reapRow_db (o r : String → Bool) (st : ServerState) (f : FileRec) :
    (reapRow o r st f).db
      = if r f.id then st.db else st.db.filter fun g => g.id != f.id := by
  rw [reapRow, applyDelete_deleteRow_db, applyDelete_deleteObject_db]

theorem reapRow_db_subset (o r : String → Bool) (st : ServerState) (f : FileRec) :
    ∀ g ∈ (reapRow o r st f).db, g ∈ st.db := by
  intro g hg
  rw [reapRow_db] at hg
  by_cases h : r f.id
  · rwa [if_pos h] at hg
  · rw [if_neg h] at hg
    exact List.mem_of_mem_filter hg

theorem reapBatch_db_subset (o r : String → Bool) :
    ∀ (batch : List FileRec) (st : ServerState),
      ∀ g ∈ (reapBatch o r st batch).db, g ∈ st.db := by
  intro batch
  induction batch with
  | nil => intro st g hg; exact hg
  | cons b bs ih =>
    intro st g hg
    exact reapRow_db_subset o r st b g (ih (reapRow o r st b) g hg)

/-- A row whose DB deletion succeeds is gone after its batch — no matter
which other deletions (storage objects included) fail. -/
theorem reapBatch_removes (o r : String → Bool) :
    ∀ (batch : List FileRec) (st : ServerState) (f : FileRec),
      f ∈ batch → r f.id = false →
      ∀ g ∈ (reapBatch o r st batch).db, g.id ≠ f.id := by
  intro batch
  induction batch with
  | nil => intro st f hf; exact absurd hf (List.not_mem_nil f)
  | cons b bs ih =>
    intro st f hf hrf g hg
    rcases List.mem_cons.mp hf with rfl | hf'
    · have hg' : g ∈ (reapRow o r st f).db :=
        reapBatch_db_subset o r bs (reapRow o r st f) g hg
      rw [reapRow_db, hrf] at hg'
      simp only [if_false, Bool.false_eq_true] at hg'
      have := List.of_mem_filter hg'
      simpa using this
    · exact ih (reapRow o r st b) f hf' hrf g hg

theorem reapBatch_db_length_le (o r : String → Bool) :
    ∀ (batch : List FileRec) (st : ServerState),
      (reapBatch o r st batch).db.length ≤ st.db.length := by
  intro batch
  induction batch with
  | nil => intro st; exact le_refl _
  | cons b bs ih =>
    intro st
    refine le_trans (ih (reapRow o r st b)) ?_
    rw [reapRow_db]
    by_cases h : r b.id
    · rw [if_pos h]
    · rw [if_neg h]
      exact List.length_filter_le _ _

theorem reapBatch_db_length_lt (o : String → Bool) (st : ServerState)
    (b : FileRec) (bs : List FileRec) (hb : b ∈ st.db) :
    (reapBatch o (fun _ => false) st (b :: bs)).db.length < st.db.length := by
  refine lt_of_le_of_lt
    (reapBatch_db_length_le o (fun _ => false) bs (reapRow o (fun _ => false) st b)) ?_
  rw [reapRow_db]
  simp only [if_false, Bool.false_eq_true]
  exact List.length_filter_lt_length_iff_exists.mpr ⟨b, hb, by simp⟩

/-- With fuel exceeding the row count, a pass in which DB row deletions
succeed reaches the empty-batch exit, and no expired row remains. -/
theorem cleanupPass_terminates (objFail : String → Bool) (now : Nat) :
    ∀ (fuel : Nat) (st : ServerState), st.db.length < fuel →
      ∃ st', cleanupPass objFail (fun _ => false) now fuel st = some st' ∧
        (expiredBatch st'.db now).isEmpty = true := by
  intro fuel
  induction fuel with
  | zero => intro st h; omega
  | succ fuel ih =>
    intro st h
    by_cases hb : (expiredBatch st.db now).isEmpty = true
    · rw [cleanupPass, if_pos hb]
      exact ⟨st, rfl, hb⟩
    · rw [cleanupPass, if_neg hb]
      apply ih
      rcases hbatch : expiredBatch st.db now with _ | ⟨b, bs⟩
      · rw [hbatch] at hb
        exact absurd rfl hb
      · have hbmem : b ∈ st.db := by
          have h1 : b ∈ expiredBatch st.db now := by
            rw [hbatch]; exact List.mem_cons_self b bs
          exact List.mem_of_mem_filter (List.take_subset _ _ h1)
        have := reapBatch_db_length_lt objFail st b bs hbmem
        omega

/-- A row the reaper can never delete from the DB: its metadata deletion
always fails. -/
def stuckRow : FileRec :=
  { sampleFile with id := "stuck", storageKey := "k-stuck", expiresAt := 0 }

/-- With one expired row whose DB deletion persistently fails, every
iteration refetches the same non-empty batch: the pass never reaches the
empty-batch exit, whatever the fuel. -/
theorem cleanupPass_stuck (fuel : Nat) :
    cleanupPass (fun _ => false) (fun id => id == "stuck") 10 fuel
      ⟨[], [stuckRow]⟩ = none := by
  induction fuel with
  | zero => rfl
  | succ fuel ih =>
    rw [cleanupPass, if_neg (by decide)]
    have hre : reapBatch (fun _ => false) (fun id => id == "stuck")
        ⟨[], [stuckRow]⟩
        (expiredBatch (ServerState.db ⟨[], [stuckRow]⟩) 10)
        = ⟨[], [stuckRow]⟩ := by decide
    rw [hre]
    exact ih

/-- **C7 (counterexample).** The claim "every reaper pass terminates …
a failure to delete one row does not block the sweep" fails: a single
expired row whose DB deletion persistently fails is refetched in every
batch, so the pass's loop never sees an empty batch — here it is still
running after 1000 iterations over a one-row table (and
`cleanupPass_stuck` shows this for every fuel). -/
theorem claim_C7_counterexample :
    cleanupPass (fun _ => false) (fun id => id == "stuck") 10 1000
        ⟨[], [stuckRow]⟩ = none ∧
      expiredBatch [stuckRow] 10 = [stuckRow] :=
  ⟨cleanupPass_stuck 1000, by decide⟩

/-- **C7 (amended).** A reaper pass in which the DB row deletions succeed
terminates (fuel `rows + 1` reaches the empty-batch exit) with no
expired row left; within a batch each row's storage object is deleted
before its metadata row; and an individual failure does not abort the
pass: every row of the batch is still processed, so a stuck *storage
object* cannot block the sweep (its row is deleted regardless) — but a
row whose *DB deletion* persistently fails makes the pass loop forever
(see the counterexample). -/
theorem claim_C7_reaper_amended :
    (∀ (objFail : String → Bool) (now : Nat) (st : ServerState),
      ∃ st', cleanupPass objFail (fun _ => false) now (st.db.length + 1) st
          = some st' ∧
        (expiredBatch st'.db now).isEmpty = true) ∧
      (∀ (objFail rowFail : String → Bool) (st : ServerState) (f : FileRec),
        reapRow objFail rowFail st f
          = applyDelete objFail rowFail
              (applyDelete objFail rowFail st (DeleteAction.deleteObject f.storageKey))
              (DeleteAction.deleteRow f.id)) ∧
      (∀ (objFail rowFail : String → Bool) (st : ServerState)
          (batch : List FileRec) (f : FileRec),
        f ∈ batch → rowFail f.id = false →
        ∀ g ∈ (reapBatch objFail rowFail st batch).db, g.id ≠ f.id) :=
  ⟨fun objFail now st => cleanupPass_terminates objFail now (st.db.length + 1) st
      (by omega),
    fun _ _ _ _ => rfl,
    fun objFail rowFail st batch f hf hrf => reapBatch_removes _ _ batch st f hf hrf⟩

theorem claim_C7_reaper_amended_witness :
    (cleanupPass (fun _ => false) (fun _ => false) 10 2 ⟨[], [sampleFile]⟩).isSome
      = true := by
  obtain ⟨st', h1, -⟩ :=
    claim_C7_reaper_amended.1 (fun _ => false) 10 ⟨[], [sampleFile]⟩
  have h2 : (cleanupPass (fun _ => false) (fun _ => false) 10
      ((⟨[], [sampleFile]⟩ : ServerState).db.length + 1)
      ⟨[], [sampleFile]⟩).isSome = true := by
    rw [h1]
    rfl
  exact h2

end TempShare
